import Mathlib

/-!
# Verification of the RoPP HTTP adapter and endpoint facade

A shallow embedding of `src/include/request.hpp` (the HTTP request/response
adapter) and of `src/RoPP/user.cpp` (the endpoint facade), together with
theorems settling the specification claims.

Strings are modelled as `List Char` (the adapter treats bytes as opaque 8-bit
characters).  `std::map<std::string, std::string>` is modelled as an
association list kept sorted by key, matching the iteration order and the
overwrite-on-insert semantics of `std::map`.  `std::stringstream` /
`std::getline` are modelled by `Sstream` / `sgetline` below, faithful to the
C++ stream-state semantics (eofbit, failbit, the sentry that leaves the target
string untouched when it fails).  A C++ function that can throw is modelled
with an `Option` result, `none` standing for a thrown exception.
-/

namespace RoPP

/-- Lexicographic order on character lists, mirroring `std::string::operator<`. -/
def ltChars : List Char → List Char → Bool
  | [], [] => false
  | [], _ :: _ => true
  | _ :: _, [] => false
  | a :: as, b :: bs => if a < b then true else if b < a then false else ltChars as bs

/-- `std::map` insertion (`m[k] = v`): keeps the association list sorted by
key and overwrites an existing binding. -/
def mapInsert : List (List Char × List Char) → List Char → List Char →
    List (List Char × List Char)
  | [], k, v => [(k, v)]
  | (k', v') :: rest, k, v =>
    if ltChars k k' then (k, v) :: (k', v') :: rest
    else if k = k' then (k, v) :: rest
    else (k', v') :: mapInsert rest k v

/-- `std::map` lookup. -/
def mapFind : List (List Char × List Char) → List Char → Option (List Char)
  | [], _ => none
  | (k', v') :: rest, k => if k = k' then some v' else mapFind rest k

/-- Split a character list at the first occurrence of a delimiter: the prefix
before the delimiter, and (when found) the remainder after it. -/
def splitFirst (d : Char) : List Char → List Char × Option (List Char)
  | [] => ([], none)
  | c :: cs =>
    if c = d then ([], some cs)
    else
      let r := splitFirst d cs
      (c :: r.1, r.2)

/-- The state of a `std::stringstream` being read: remaining characters,
eofbit and failbit. -/
structure Sstream where
  rem : List Char
  eofb : Bool
  failb : Bool
deriving Repr, DecidableEq

def Sstream.ofChars (cs : List Char) : Sstream := ⟨cs, false, false⟩

/-- `std::getline(stream, str, delim)`.  Returns the new stream state, the new
value of `str`, and whether the read succeeded.  Faithful to libstdc++: when
the sentry fails (eofbit or failbit already set) the target string is left
untouched and failbit is set; otherwise the string is erased and characters
are extracted up to the delimiter (consumed, not stored) or up to end of
input (setting eofbit, and failbit as well when nothing was extracted). -/
def sgetline (s : Sstream) (str : List Char) (delim : Char) :
    Sstream × List Char × Bool :=
  if s.failb || s.eofb then (⟨s.rem, s.eofb, true⟩, str, false)
  else
    match splitFirst delim s.rem with
    | (pre, some rest) => (⟨rest, false, false⟩, pre, true)
    | (_, none) =>
      if s.rem.isEmpty then (⟨[], true, true⟩, [], false)
      else (⟨[], true, false⟩, s.rem, true)

theorem splitFirst_rest_length (d : Char) :
    ∀ (l rest : List Char), (splitFirst d l).2 = some rest → rest.length < l.length := by
  intro l
  induction l with
  | nil => intro rest h; simp [splitFirst] at h
  | cons c cs ih =>
    intro rest h
    by_cases hc : c = d
    · simp [splitFirst, hc] at h
      subst h; simp
    · simp [splitFirst, hc] at h
      exact Nat.lt_trans (ih rest h) (Nat.lt_succ_self _)

theorem sgetline_rem_le (s : Sstream) (str : List Char) (d : Char) :
    ((sgetline s str d).1).rem.length ≤ s.rem.length := by
  unfold sgetline
  by_cases hf : (s.failb || s.eofb) = true
  · simp [hf]
  · simp only [hf, Bool.false_eq_true, if_false]
    rcases hs : splitFirst d s.rem with ⟨pre, rest?⟩
    cases rest? with
    | some rest =>
      exact Nat.le_of_lt (splitFirst_rest_length d s.rem rest (by rw [hs]))
    | none =>
      by_cases he : s.rem.isEmpty <;> simp [he]

theorem sgetline_rem_lt (s : Sstream) (str : List Char) (d : Char)
    (h : (sgetline s str d).2.2 = true) :
    ((sgetline s str d).1).rem.length < s.rem.length := by
  unfold sgetline at h ⊢
  by_cases hf : (s.failb || s.eofb) = true
  · simp [hf] at h
  · simp only [hf, Bool.false_eq_true, if_false] at h ⊢
    rcases hs : splitFirst d s.rem with ⟨pre, rest?⟩
    cases rest? with
    | some rest =>
      exact splitFirst_rest_length d s.rem rest (by rw [hs])
    | none =>
      rw [hs] at h
      by_cases he : s.rem.isEmpty
      · simp [he] at h
      · simp only [he, if_false]
        have : s.rem ≠ [] := by
          intro hnil; rw [hnil] at he; simp at he
        simpa using List.length_pos.mpr this

/-- `std::tolower` in the C locale (only `A`–`Z` change). -/
def toLowerChar (c : Char) : Char :=
  if 'A' ≤ c ∧ c ≤ 'Z' then Char.ofNat (c.toNat + 32) else c

/-- `std::transform(key.begin(), key.end(), key.begin(), tolower)`. -/
def toLowerChars (l : List Char) : List Char := l.map toLowerChar

/-- Characters accepted by `isspace` in the C locale. -/
def isCSpace (c : Char) : Bool :=
  c = ' ' || c = '\t' || c = '\n' || c = '\x0b' || c = '\x0c' || c = '\r'

/-- `std::stoi` (base 10): skip leading whitespace, optional sign, then at
least one decimal digit; further parsing stops at the first non-digit.
`none` models a thrown `std::invalid_argument` (no digits) or
`std::out_of_range` (value outside `int`). -/
def stoiOpt (l : List Char) : Option Int :=
  let l1 := l.dropWhile isCSpace
  let signed : Int × List Char :=
    match l1 with
    | '+' :: r => (1, r)
    | '-' :: r => (-1, r)
    | r => (1, r)
  let ds := signed.2.takeWhile Char.isDigit
  if ds.isEmpty then none
  else
    let v : Int := signed.1 * ds.foldl (fun a c => a * 10 + ((c.toNat : Int) - 48)) 0
    if v < -2147483648 ∨ 2147483647 < v then none else some v

/-- `line.substr(line.find(' ') + 1)` where the found index is stored in an
`int` (`std::string::npos` becomes `-1`, so "not found" yields the whole
string). -/
def afterFirstSpace (l : List Char) : List Char :=
  match splitFirst ' ' l with
  | (_, some rest) => rest
  | (_, none) => l

/-- `line.substr(0, line.find(' '))` with the same `int`-truncated index
(`-1` converts back to `npos`, so "not found" yields the whole string). -/
def upToFirstSpace (l : List Char) : List Char :=
  match splitFirst ' ' l with
  | (pre, some _) => pre
  | (_, none) => l

/-- The status-line parse in `Request::execute`: skip the HTTP-version token,
split the remainder at the next space into the code string and the message,
and run `std::stoi` on the code string.  `none` models the `stoi` throw. -/
def parseStatusLine (line : List Char) : Option (Int × List Char) :=
  let responsePart := afterFirstSpace line
  let message := afterFirstSpace responsePart
  let codeStr := upToFirstSpace responsePart
  (stoiOpt codeStr).map fun code => (code, message)

/-- Fuel-indexed body of the `Set-Cookie` subparser loop of
`Request::execute`: repeatedly read a key up to `=`, a value up to `;`,
record `cookies[key] = value`, and skip up to one space.  `cookie` is the
`std::string` declared outside the loop; `cookieValue` is re-declared
(fresh) inside each iteration.  The fuel only drives structural recursion;
`cookieLoop` below always supplies enough of it. -/
def cookieLoopF : Nat → Sstream → List Char → List (List Char × List Char) →
    List (List Char × List Char)
  | 0, _, _, m => m
  | fuel + 1, cs, cookie, m =>
    let r1 := sgetline cs cookie '='
    if r1.2.2 = true then
      let r2 := sgetline r1.1 [] ';'
      let r3 := sgetline r2.1 r2.2.1 ' '
      cookieLoopF fuel r3.1 r1.2.1 (mapInsert m r1.2.1 r2.2.1)
    else m

/-- The `Set-Cookie` subparser loop (`while (std::getline(cookieStream,
cookie, '='))`). -/
def cookieLoop (cs : Sstream) (cookie : List Char)
    (m : List (List Char × List Char)) : List (List Char × List Char) :=
  cookieLoopF (cs.rem.length + 1) cs cookie m

theorem cookieLoopF_congr :
    ∀ (fuel fuel' : Nat) (cs : Sstream) (cookie : List Char)
      (m : List (List Char × List Char)),
      cs.rem.length < fuel → cs.rem.length < fuel' →
      cookieLoopF fuel cs cookie m = cookieLoopF fuel' cs cookie m := by
  intro fuel
  induction fuel with
  | zero => intro fuel' cs cookie m h; omega
  | succ fuel ih =>
    intro fuel' cs cookie m h h'
    cases fuel' with
    | zero => omega
    | succ fuel' =>
      simp only [cookieLoopF]
      by_cases hs : (sgetline cs cookie '=').2.2 = true
      · simp only [hs, if_true]
        have hlt : (sgetline (sgetline (sgetline cs cookie '=').1 [] ';').1
            (sgetline (sgetline cs cookie '=').1 [] ';').2.1 ' ').1.rem.length <
            cs.rem.length :=
          calc (sgetline (sgetline (sgetline cs cookie '=').1 [] ';').1
                  (sgetline (sgetline cs cookie '=').1 [] ';').2.1 ' ').1.rem.length
              ≤ (sgetline (sgetline cs cookie '=').1 [] ';').1.rem.length :=
                sgetline_rem_le _ _ _
            _ ≤ (sgetline cs cookie '=').1.rem.length := sgetline_rem_le _ _ _
            _ < cs.rem.length := sgetline_rem_lt _ _ _ hs
        exact ih _ _ _ _ (by omega) (by omega)
      · simp [hs]

/-- One-step unfolding of `cookieLoop`. -/
theorem cookieLoop_eq (cs : Sstream) (cookie : List Char)
    (m : List (List Char × List Char)) :
    cookieLoop cs cookie m =
      (let r1 := sgetline cs cookie '='
       if r1.2.2 = true then
         let r2 := sgetline r1.1 [] ';'
         let r3 := sgetline r2.1 r2.2.1 ' '
         cookieLoop r3.1 r1.2.1 (mapInsert m r1.2.1 r2.2.1)
       else m) := by
  show cookieLoopF (cs.rem.length + 1) cs cookie m = _
  simp only [cookieLoopF]
  by_cases hs : (sgetline cs cookie '=').2.2 = true
  · simp only [hs, if_true]
    have hlt : (sgetline (sgetline (sgetline cs cookie '=').1 [] ';').1
        (sgetline (sgetline cs cookie '=').1 [] ';').2.1 ' ').1.rem.length <
        cs.rem.length :=
      calc (sgetline (sgetline (sgetline cs cookie '=').1 [] ';').1
              (sgetline (sgetline cs cookie '=').1 [] ';').2.1 ' ').1.rem.length
          ≤ (sgetline (sgetline cs cookie '=').1 [] ';').1.rem.length :=
            sgetline_rem_le _ _ _
        _ ≤ (sgetline cs cookie '=').1.rem.length := sgetline_rem_le _ _ _
        _ < cs.rem.length := sgetline_rem_lt _ _ _ hs
    exact cookieLoopF_congr _ _ _ _ _ (by omega) (by omega)
  · simp [hs]

/-- The body of one iteration of the header-parsing `while` loop in
`Request::execute`, acting on one extracted line: split the line at the first
`:` into a key, consume up to one space, read the value up to `\r`, lowercase
the key, run the cookie subparser when the key is `set-cookie`, and record
`headers[key] = value`. -/
def processLine (line : List Char)
    (hm cm : List (List Char × List Char)) :
    List (List Char × List Char) × List (List Char × List Char) :=
  let ls0 := Sstream.ofChars line
  let r1 := sgetline ls0 [] ':'
  let r2 := sgetline r1.1 [] ' '
  let r3 := sgetline r2.1 r2.2.1 '\r'
  let key := toLowerChars r1.2.1
  let value := r3.2.1
  let cm' := if key = "set-cookie".data then cookieLoop (Sstream.ofChars value) [] cm else cm
  (mapInsert hm key value, cm')

/-- Fuel-indexed body of the header-parsing `while (std::getline(ss, line))`
loop of `Request::execute`, threading the headers map and the local cookies
map.  `headerLoop` below always supplies enough fuel. -/
def headerLoopF : Nat → Sstream → List Char →
    List (List Char × List Char) → List (List Char × List Char) →
    List (List Char × List Char) × List (List Char × List Char)
  | 0, _, _, hm, cm => (hm, cm)
  | fuel + 1, ss, line, hm, cm =>
    let r := sgetline ss line '\n'
    if r.2.2 = true then
      let p := processLine r.2.1 hm cm
      headerLoopF fuel r.1 r.2.1 p.1 p.2
    else (hm, cm)

/-- The header-parsing loop of `Request::execute`. -/
def headerLoop (ss : Sstream) (line : List Char)
    (hm cm : List (List Char × List Char)) :
    List (List Char × List Char) × List (List Char × List Char) :=
  headerLoopF (ss.rem.length + 1) ss line hm cm

theorem headerLoopF_congr :
    ∀ (fuel fuel' : Nat) (ss : Sstream) (line : List Char)
      (hm cm : List (List Char × List Char)),
      ss.rem.length < fuel → ss.rem.length < fuel' →
      headerLoopF fuel ss line hm cm = headerLoopF fuel' ss line hm cm := by
  intro fuel
  induction fuel with
  | zero => intro fuel' ss line hm cm h; omega
  | succ fuel ih =>
    intro fuel' ss line hm cm h h'
    cases fuel' with
    | zero => omega
    | succ fuel' =>
      simp only [headerLoopF]
      by_cases hs : (sgetline ss line '\n').2.2 = true
      · simp only [hs, if_true]
        have hlt := sgetline_rem_lt ss line '\n' hs
        exact ih _ _ _ _ _ (by omega) (by omega)
      · simp [hs]

/-- One-step unfolding of `headerLoop`. -/
theorem headerLoop_eq (ss : Sstream) (line : List Char)
    (hm cm : List (List Char × List Char)) :
    headerLoop ss line hm cm =
      (let r := sgetline ss line '\n'
       if r.2.2 = true then
         let p := processLine r.2.1 hm cm
         headerLoop r.1 r.2.1 p.1 p.2
       else (hm, cm)) := by
  show headerLoopF (ss.rem.length + 1) ss line hm cm = _
  simp only [headerLoopF]
  by_cases hs : (sgetline ss line '\n').2.2 = true
  · simp only [hs, if_true]
    have hlt := sgetline_rem_lt ss line '\n' hs
    exact headerLoopF_congr _ _ _ _ _ _ (by omega) (by omega)
  · simp [hs]

/-- The `Response` struct of `request.hpp`.  `curlCode` is the engine code
(`CURLE_OK = 0`); `code` is the `int` HTTP status; buffers are byte/character
lists; `headers` and `cookies` are `std::map`s. -/
structure Response where
  curlCode : Nat
  code : Int
  message : List Char
  data : List Char
  rawData : List Char
  rawHeaders : List Char
  headers : List (List Char × List Char)
  cookies : List (List Char × List Char)
deriving Repr, DecidableEq

/-- `CURLE_OK`. -/
def CURLE_OK : Nat := 0

/-- The outcome of one `curl_easy_perform` call: the returned engine code and
the bytes delivered to the body and header sinks. -/
structure EngineBehavior where
  code : Nat
  body : List Char
  hdr : List Char

/-- `Request::execute` after the engine call: the early return on a non-OK
engine code (a `Response` holding only `curlCode`, everything else
value-initialized), otherwise buffer copying, the status-line parse and the
header loop.  `none` models the `std::stoi` exception escaping `execute`. -/
def execute (e : EngineBehavior) : Option Response :=
  if e.code ≠ CURLE_OK then
    some { curlCode := e.code, code := 0, message := [], data := [],
           rawData := [], rawHeaders := [], headers := [], cookies := [] }
  else
    let r := sgetline (Sstream.ofChars e.hdr) [] '\n'
    let line := r.2.1
    match parseStatusLine line with
    | none => none
    | some (code, message) =>
      let p := headerLoop (Sstream.ofChars e.hdr) line [] []
      some { curlCode := CURLE_OK, code := code, message := message,
             data := e.body, rawData := e.body, rawHeaders := e.hdr,
             headers := p.1, cookies := p.2 }

/-- Fuel-indexed scan implementing `std::string::find(word, pos)` for
`RoPP::User::GetGroupsCount`: the smallest index `i ≥ pos` at which `needle`
occurs in `hay` (`none` models `npos`).  `findFrom` below always supplies
enough fuel. -/
def findFromF : Nat → List Char → List Char → Nat → Option Nat
  | 0, _, _, _ => none
  | fuel + 1, hay, needle, pos =>
    if hay.length < pos then none
    else if needle.isPrefixOf (hay.drop pos) then some pos
    else findFromF fuel hay needle (pos + 1)

/-- `std::string::find(word, pos)`. -/
def findFrom (hay needle : List Char) (pos : Nat) : Option Nat :=
  findFromF (hay.length + 2 - pos) hay needle pos

theorem findFromF_some :
    ∀ (fuel : Nat) (hay needle : List Char) (pos i : Nat),
      findFromF fuel hay needle pos = some i →
      pos ≤ i ∧ i ≤ hay.length ∧ needle.isPrefixOf (hay.drop i) = true := by
  intro fuel
  induction fuel with
  | zero => intro hay needle pos i h; simp [findFromF] at h
  | succ fuel ih =>
    intro hay needle pos i h
    rw [findFromF] at h
    by_cases hlt : hay.length < pos
    · rw [if_pos hlt] at h; exact absurd h (by simp)
    · rw [if_neg hlt] at h
      by_cases hpre : needle.isPrefixOf (hay.drop pos) = true
      · rw [if_pos hpre] at h
        obtain rfl : pos = i := by simpa using h
        exact ⟨le_refl _, Nat.le_of_not_lt hlt, hpre⟩
      · rw [if_neg hpre] at h
        obtain ⟨h1, h2, h3⟩ := ih hay needle (pos + 1) i h
        exact ⟨Nat.le_of_succ_le h1, h2, h3⟩

theorem findFrom_some (hay needle : List Char) (pos i : Nat)
    (h : findFrom hay needle pos = some i) :
    pos ≤ i ∧ i ≤ hay.length ∧ needle.isPrefixOf (hay.drop i) = true :=
  findFromF_some _ hay needle pos i h

theorem findFromF_congr :
    ∀ (fuel fuel' : Nat) (hay needle : List Char) (pos : Nat),
      hay.length + 1 - pos < fuel → hay.length + 1 - pos < fuel' →
      findFromF fuel hay needle pos = findFromF fuel' hay needle pos := by
  intro fuel
  induction fuel with
  | zero => intro fuel' hay needle pos h; omega
  | succ fuel ih =>
    intro fuel' hay needle pos h h'
    cases fuel' with
    | zero => omega
    | succ fuel' =>
      simp only [findFromF]
      by_cases hlt : hay.length < pos
      · simp [hlt]
      · by_cases hpre : needle.isPrefixOf (hay.drop pos) = true
        · simp [hlt, hpre]
        · simp only [if_neg hlt, if_neg hpre]
          exact ih _ _ _ _ (by omega) (by omega)

/-- One-step unfolding of `findFrom`. -/
theorem findFrom_eq (hay needle : List Char) (pos : Nat) :
    findFrom hay needle pos =
      (if hay.length < pos then none
       else if needle.isPrefixOf (hay.drop pos) then some pos
       else findFrom hay needle (pos + 1)) := by
  show findFromF (hay.length + 2 - pos) hay needle pos = _
  by_cases hlt : hay.length < pos
  · rcases hf : hay.length + 2 - pos with _ | fuel
    · simp [findFromF, hlt]
    · simp [findFromF, hlt]
  · rcases hf : hay.length + 2 - pos with _ | fuel
    · omega
    · rw [findFromF]
      by_cases hpre : needle.isPrefixOf (hay.drop pos) = true
      · simp [hlt, hpre]
      · simp only [if_neg hlt, if_neg hpre]
        exact findFromF_congr _ _ _ _ _ (by omega) (by omega)

/-- Fuel-indexed counting loop of `RoPP::User::GetGroupsCount`: start at the
first occurrence of `"group"`, and step by the word length after each hit.
`countGroupsFrom` below always supplies enough fuel. -/
def countGroupsFromF : Nat → List Char → Nat → Nat
  | 0, _, _ => 0
  | fuel + 1, data, pos =>
    match findFrom data "group".data pos with
    | some i => 1 + countGroupsFromF fuel data (i + 5)
    | none => 0

/-- The counting loop of `RoPP::User::GetGroupsCount`. -/
def countGroupsFrom (data : List Char) (pos : Nat) : Nat :=
  countGroupsFromF (data.length + 6 - pos) data pos

theorem countGroupsFromF_congr :
    ∀ (fuel fuel' : Nat) (data : List Char) (pos : Nat),
      data.length + 5 - pos < fuel → data.length + 5 - pos < fuel' →
      countGroupsFromF fuel data pos = countGroupsFromF fuel' data pos := by
  intro fuel
  induction fuel with
  | zero => intro fuel' data pos h; omega
  | succ fuel ih =>
    intro fuel' data pos h h'
    cases fuel' with
    | zero => omega
    | succ fuel' =>
      simp only [countGroupsFromF]
      rcases hfind : findFrom data "group".data pos with _ | i
      · rfl
      · obtain ⟨h1, h2, _⟩ := findFrom_some data "group".data pos i hfind
        show 1 + countGroupsFromF fuel data (i + 5) =
          1 + countGroupsFromF fuel' data (i + 5)
        rw [ih fuel' data (i + 5) (by omega) (by omega)]

/-- One-step unfolding of `countGroupsFrom`. -/
theorem countGroupsFrom_eq (data : List Char) (pos : Nat) :
    countGroupsFrom data pos =
      (match findFrom data "group".data pos with
       | some i => 1 + countGroupsFrom data (i + 5)
       | none => 0) := by
  rcases hfind : findFrom data "group".data pos with _ | i
  · show countGroupsFromF (data.length + 6 - pos) data pos = 0
    rcases hf : data.length + 6 - pos with _ | fuel
    · rfl
    · simp only [countGroupsFromF]
      rw [hfind]
  · obtain ⟨h1, h2, _⟩ := findFrom_some data "group".data pos i hfind
    show countGroupsFromF (data.length + 6 - pos) data pos =
      1 + countGroupsFrom data (i + 5)
    obtain ⟨fuel, hf⟩ : ∃ fuel, data.length + 6 - pos = fuel + 1 :=
      ⟨data.length + 5 - pos, by omega⟩
    rw [hf]
    simp only [countGroupsFromF]
    rw [hfind]
    show 1 + countGroupsFromF fuel data (i + 5) =
      1 + countGroupsFromF (data.length + 6 - (i + 5)) data (i + 5)
    rw [countGroupsFromF_congr fuel (data.length + 6 - (i + 5)) data (i + 5)
      (by omega) (by omega)]

/-- Fuel-indexed specification-level count of non-overlapping occurrences of
`"group"` in a string, scanning left to right.  `countOcc` below always
supplies enough fuel. -/
def countOccF : Nat → List Char → Nat
  | 0, _ => 0
  | fuel + 1, l =>
    match l with
    | [] => 0
    | c :: cs =>
      if "group".data.isPrefixOf (c :: cs) then 1 + countOccF fuel ((c :: cs).drop 5)
      else countOccF fuel cs

/-- Specification-level count of non-overlapping occurrences of `"group"`. -/
def countOcc (l : List Char) : Nat := countOccF (l.length + 1) l

theorem countOccF_congr :
    ∀ (fuel fuel' : Nat) (l : List Char),
      l.length < fuel → l.length < fuel' →
      countOccF fuel l = countOccF fuel' l := by
  intro fuel
  induction fuel with
  | zero => intro fuel' l h; omega
  | succ fuel ih =>
    intro fuel' l h h'
    cases fuel' with
    | zero => omega
    | succ fuel' =>
      simp only [countOccF]
      cases l with
      | nil => rfl
      | cons c cs =>
        by_cases hpre : "group".data.isPrefixOf (c :: cs) = true
        · simp only [hpre, if_true]
          have hd : ((c :: cs).drop 5).length ≤ cs.length := by
            simp [List.length_drop]
          rw [ih fuel' ((c :: cs).drop 5) (by simp at h ⊢; omega)
            (by simp at h' ⊢; omega)]
        · simp only [hpre, if_false]
          exact ih fuel' cs (by simp at h; omega) (by simp at h'; omega)

/-- One-step unfolding of `countOcc`. -/
theorem countOcc_eq (l : List Char) :
    countOcc l =
      (match l with
       | [] => 0
       | c :: cs =>
         if "group".data.isPrefixOf (c :: cs) then 1 + countOcc ((c :: cs).drop 5)
         else countOcc cs) := by
  cases l with
  | nil => rfl
  | cons c cs =>
    show countOccF (cs.length + 1 + 1) (c :: cs) = _
    simp only [countOccF]
    by_cases hpre : "group".data.isPrefixOf (c :: cs) = true
    · simp only [hpre, if_true]
      show 1 + countOccF (cs.length + 1) ((c :: cs).drop 5) =
        1 + countOccF (((c :: cs).drop 5).length + 1) ((c :: cs).drop 5)
      rw [countOccF_congr (cs.length + 1) (((c :: cs).drop 5).length + 1)
        ((c :: cs).drop 5) (by simp only [List.length_drop, List.length_cons]; omega) (by omega)]
    · simp only [hpre, if_false]
      show countOccF (cs.length + 1) cs = countOccF (cs.length + 1) cs
      rfl

/-- `curl_slist_append`. -/
def slistAppend (l : List (List Char)) (s : List Char) : List (List Char) :=
  l ++ [s]

/-- The header-list construction of `Request::prepareHeaders`: one
`"<key>: <value>"` entry per header-map entry (in map iteration order),
then the synthetic cookie header `"Cookie: k1=v1; k2=v2; "` appended last. -/
def buildCurlHeaders (hm cm : List (List Char × List Char)) : List (List Char) :=
  let l := hm.foldl (fun acc kv => slistAppend acc (kv.1 ++ ": ".data ++ kv.2)) []
  let cookieHeader :=
    cm.foldl (fun acc kv => acc ++ kv.1 ++ "=".data ++ kv.2 ++ "; ".data) "Cookie: ".data
  slistAppend l cookieHeader

/-- The `Request` class state: url, body data, header and cookie maps, and
the saved engine header-list allocation (`curl_headers`). -/
structure Request where
  url : List Char
  data : List Char
  headers : List (List Char × List Char)
  cookies : List (List Char × List Char)
  curl_headers : List (List Char)

/-- `Request::prepareHeaders`: free the previous header-list allocation,
rebuild the list from the current header and cookie maps, save it in the
instance and hand it to the engine (the returned list). -/
def prepareHeaders (r : Request) : Request × List (List Char) :=
  let l := buildCurlHeaders r.headers r.cookies
  ({ r with curl_headers := l }, l)

/-- The first line extracted from the header block (the target of the first
`std::getline(ss, line)` in `execute`). -/
def firstLine (hdr : List Char) : List Char :=
  (sgetline (Sstream.ofChars hdr) [] '\n').2.1

/-- The status-code token handed to `std::stoi` by `execute`. -/
def codeToken (hdr : List Char) : List Char :=
  upToFirstSpace (afterFirstSpace (firstLine hdr))

theorem execute_ok (body hdr : List Char) :
    execute ⟨0, body, hdr⟩ =
      match parseStatusLine (firstLine hdr) with
      | none => none
      | some (code, message) =>
        some { curlCode := CURLE_OK, code := code, message := message,
               data := body, rawData := body, rawHeaders := hdr,
               headers := (headerLoop (Sstream.ofChars hdr) (firstLine hdr) [] []).1,
               cookies := (headerLoop (Sstream.ofChars hdr) (firstLine hdr) [] []).2 } := by
  unfold execute firstLine
  rw [if_neg (by simp [CURLE_OK])]

theorem splitFirst_not_mem (d : Char) :
    ∀ (l : List Char), d ∉ l → splitFirst d l = (l, none) := by
  intro l
  induction l with
  | nil => intro _; rfl
  | cons c cs ih =>
    intro h
    have hc : ¬(c = d) := fun hcd => h (hcd ▸ List.mem_cons_self c cs)
    have hcs : d ∉ cs := fun hm => h (List.mem_cons_of_mem c hm)
    simp only [splitFirst, if_neg hc, ih hcs]

theorem splitFirst_append (d : Char) (a b : List Char) (h : d ∉ a) :
    splitFirst d (a ++ d :: b) = (a, some b) := by
  induction a with
  | nil => simp [splitFirst]
  | cons c cs ih =>
    have hc : ¬(c = d) := fun hcd => h (hcd ▸ List.mem_cons_self c cs)
    have hcs : d ∉ cs := fun hm => h (List.mem_cons_of_mem c hm)
    simp only [List.cons_append, splitFirst, if_neg hc, List.append_eq, ih hcs]

theorem splitFirst_some_decomp (d : Char) :
    ∀ (l pre rest : List Char), splitFirst d l = (pre, some rest) →
      l = pre ++ d :: rest ∧ d ∉ pre := by
  intro l
  induction l with
  | nil => intro pre rest h; simp [splitFirst] at h
  | cons c cs ih =>
    intro pre rest h
    by_cases hc : c = d
    · simp only [splitFirst, if_pos hc] at h
      obtain ⟨h1, h2⟩ := Prod.mk.injEq .. ▸ h
      injection h with h1 h2
      injection h2 with h2
      subst h1; subst h2; subst hc
      exact ⟨rfl, List.not_mem_nil _⟩
    · simp only [splitFirst, if_neg hc] at h
      injection h with h1 h2
      rcases hs : splitFirst d cs with ⟨pre', rest?⟩
      rw [hs] at h1 h2
      simp only at h1 h2
      obtain ⟨hl, hm⟩ := ih pre' rest (by rw [hs, h2])
      subst h1
      constructor
      · simp [hl]
      · intro hmem
        rcases List.mem_cons.mp hmem with h' | h'
        · exact hc h'.symm
        · exact hm h'

/-- `sgetline` on a clean stream whose content holds the delimiter. -/
theorem sgetline_found (a b : List Char) (str : List Char) (d : Char) (h : d ∉ a) :
    sgetline ⟨a ++ d :: b, false, false⟩ str d = (⟨b, false, false⟩, a, true) := by
  unfold sgetline
  simp only [Bool.or_self, Bool.false_eq_true, if_false]
  rw [splitFirst_append d a b h]

/-- `sgetline` on a clean nonempty stream without the delimiter: everything is
extracted and eofbit is set. -/
theorem sgetline_to_eof (l : List Char) (str : List Char) (d : Char)
    (h : d ∉ l) (hne : l ≠ []) :
    sgetline ⟨l, false, false⟩ str d = (⟨[], true, false⟩, l, true) := by
  unfold sgetline
  simp only [Bool.or_self, Bool.false_eq_true, if_false]
  rw [splitFirst_not_mem d l h]
  simp [List.isEmpty_iff, hne]

/-- `sgetline` on a clean empty stream: nothing extracted, the target string
is erased, eofbit and failbit are set. -/
theorem sgetline_empty (str : List Char) (d : Char) :
    sgetline ⟨[], false, false⟩ str d = (⟨[], true, true⟩, [], false) := by
  rfl

/-- `sgetline` when eofbit is already set: the sentry fails, the target
string is untouched. -/
theorem sgetline_eofb (rem : List Char) (fb : Bool) (str : List Char) (d : Char) :
    sgetline ⟨rem, true, fb⟩ str d = (⟨rem, true, true⟩, str, false) := by
  unfold sgetline
  simp

/-- `sgetline` when failbit is already set. -/
theorem sgetline_failb (rem : List Char) (eb : Bool) (str : List Char) (d : Char) :
    sgetline ⟨rem, eb, true⟩ str d = (⟨rem, eb, true⟩, str, false) := by
  unfold sgetline
  simp

theorem afterFirstSpace_append (a b : List Char) (h : ' ' ∉ a) :
    afterFirstSpace (a ++ ' ' :: b) = b := by
  unfold afterFirstSpace
  rw [splitFirst_append ' ' a b h]

theorem afterFirstSpace_no_space (l : List Char) (h : ' ' ∉ l) :
    afterFirstSpace l = l := by
  unfold afterFirstSpace
  rw [splitFirst_not_mem ' ' l h]

theorem upToFirstSpace_append (a b : List Char) (h : ' ' ∉ a) :
    upToFirstSpace (a ++ ' ' :: b) = a := by
  unfold upToFirstSpace
  rw [splitFirst_append ' ' a b h]

theorem upToFirstSpace_no_space (l : List Char) (h : ' ' ∉ l) :
    upToFirstSpace l = l := by
  unfold upToFirstSpace
  rw [splitFirst_not_mem ' ' l h]

theorem mapFind_mapInsert_self (m : List (List Char × List Char))
    (k v : List Char) : mapFind (mapInsert m k v) k = some v := by
  induction m with
  | nil => simp [mapInsert, mapFind]
  | cons p rest ih =>
    rcases p with ⟨k', v'⟩
    by_cases hlt : ltChars k k' = true
    · simp [mapInsert, hlt, mapFind]
    · by_cases heq : k = k'
      · subst heq
        simp [mapInsert, hlt, mapFind]
      · simp [mapInsert, hlt, heq, mapFind, ih]

theorem mapFind_mapInsert_ne (m : List (List Char × List Char))
    (k k' v : List Char) (h : k ≠ k') :
    mapFind (mapInsert m k' v) k = mapFind m k := by
  induction m with
  | nil => simp [mapInsert, mapFind, h]
  | cons p rest ih =>
    rcases p with ⟨k'', v''⟩
    by_cases hlt : ltChars k' k'' = true
    · simp [mapInsert, hlt, mapFind, h]
    · by_cases heq : k' = k''
      · subst heq
        simp [mapInsert, hlt, mapFind, h]
      · by_cases hk : k = k''
        · simp [mapInsert, hlt, heq, mapFind, hk]
        · simp [mapInsert, hlt, heq, mapFind, hk, ih]

/-! ## Facade model (`src/RoPP/user.cpp`) -/

/-- `RoPP::User::GetGroupsCount`, given the engine's behavior for the
dispatched GET: execute the request and run the substring-counting loop on
`res.data`.  `none` models an exception escaping (from `execute`). -/
def GetGroupsCount (e : EngineBehavior) : Option Nat :=
  (execute e).map fun res => countGroupsFrom res.data 0

/-! ## Claim theorems -/

/-- C3: when the engine returns a non-OK transport code, the returned
Response carries that code in `curlCode` and nothing else is populated:
`code` is 0, `message`, `data`, `rawData` and `rawHeaders` are empty, and the
`headers` and `cookies` maps are empty, because header and body parsing is
skipped. -/
theorem transport_failure_yields_bare_response (e : EngineBehavior)
    (h : e.code ≠ CURLE_OK) :
    execute e = some { curlCode := e.code, code := 0, message := [],
                       data := [], rawData := [], rawHeaders := [],
                       headers := [], cookies := [] } := by
  unfold execute
  rw [if_pos h]

theorem transport_failure_yields_bare_response_witness :
    (6 : Nat) ≠ CURLE_OK ∧
      execute ⟨6, "partial sink bytes".data, "partial hdr".data⟩ =
        some { curlCode := 6, code := 0, message := [], data := [],
               rawData := [], rawHeaders := [], headers := [],
               cookies := [] } :=
  ⟨by decide,
   transport_failure_yields_bare_response
     ⟨6, "partial sink bytes".data, "partial hdr".data⟩ (by decide)⟩

/-- C1 (code bug): at a transport failure (engine code 6,
`CURLE_COULDNT_RESOLVE_HOST`) the `GetGroupsCount` facade operation returns
the count 0 — even when the engine sinks held data — which is exactly the
value it returns for a valid successful response with an empty body, so a
transport failure is reported as a zero count and is indistinguishable from
a valid empty response; no TransportIOError-like outcome is surfaced. -/
theorem groups_count_zero_on_transport_failure :
    GetGroupsCount ⟨6, "group group group".data, []⟩ = some 0 ∧
    GetGroupsCount ⟨0, [], "HTTP/1.1 200 OK\r\n\r\n".data⟩ = some 0 := by decide

/-- C2 (counterexample): on an empty received header block, the response
parsing in `execute` throws (`std::stoi` gets an empty token), modelled by
`none`; it does not return a best-effort Response. -/
theorem execute_throws_on_empty_header_block :
    execute ⟨0, [], []⟩ = none := by decide

/-- C2 (amended): `execute` returns a Response exactly when `std::stoi`
succeeds on the status-code token of the first line; header-line parsing,
cookie parsing and everything else in `execute` never throw, so the stoi
call on the status-code token is the sole source of exceptions. -/
theorem execute_throws_iff_stoi_fails (body hdr : List Char) :
    (execute ⟨0, body, hdr⟩).isSome ↔ (stoiOpt (codeToken hdr)).isSome := by
  rw [execute_ok]
  unfold codeToken parseStatusLine
  cases hs : stoiOpt (upToFirstSpace (afterFirstSpace (firstLine hdr))) <;> simp [hs]

/-- C4 (counterexample): with a CRLF-terminated status line the reason
phrase keeps its trailing carriage return (`"OK\r"`, not `"OK"`), and when
the reason phrase is absent the message is the code token with its carriage
return (`"200\r"`), not empty (the status code still parses). -/
theorem status_message_keeps_cr_counterexample :
    (execute ⟨0, [], "HTTP/1.1 200 OK\r\n\r\n".data⟩).map Response.message =
        some "OK\r".data ∧
      (execute ⟨0, [], "HTTP/1.1 200\r\n\r\n".data⟩).map Response.message =
        some "200\r".data ∧
      (execute ⟨0, [], "HTTP/1.1 200\r\n\r\n".data⟩).map Response.code =
        some 200 ∧
      "OK\r".data ≠ "OK".data ∧ "200\r".data ≠ [] := by decide

/-- C5 (counterexample): a header line with no space after the `:` does not
yield an empty value: for the line `Foo:bar\r` the recorded value is
`"bar\r"` (the whole remainder, carriage return included), because the
space-consuming `getline` swallows everything up to end of line and the
`\r`-delimited `getline` then fails with the sentry leaving the value
untouched. -/
theorem header_no_space_value_counterexample :
    ((execute ⟨0, [], "HTTP/1.1 200 OK\r\nFoo:bar\r\n\r\n".data⟩).map fun resp =>
        mapFind resp.headers "foo".data) = some (some "bar\r".data) ∧
      "bar\r".data ≠ ([] : List Char) := by decide

/-- The cookie-header body built by `Request::prepareHeaders`: the cookie
map joined in iteration order as `k1=v1; k2=v2; `. -/
def joinCookiePieces (cm : List (List Char × List Char)) : List Char :=
  (cm.map fun kv => kv.1 ++ "=".data ++ kv.2 ++ "; ".data).flatten

theorem foldl_slistAppend (f : List Char × List Char → List Char) :
    ∀ (hm : List (List Char × List Char)) (init : List (List Char)),
      hm.foldl (fun acc kv => slistAppend acc (f kv)) init = init ++ hm.map f := by
  intro hm
  induction hm with
  | nil => intro init; simp
  | cons p ps ih =>
    intro init
    simp only [List.foldl_cons]
    rw [ih]
    simp [slistAppend, List.append_assoc]

theorem foldl_cookiePieces :
    ∀ (cm : List (List Char × List Char)) (init : List Char),
      cm.foldl (fun acc kv => acc ++ kv.1 ++ "=".data ++ kv.2 ++ "; ".data) init =
        init ++ joinCookiePieces cm := by
  intro cm
  induction cm with
  | nil => intro init; simp [joinCookiePieces]
  | cons p ps ih =>
    intro init
    simp only [List.foldl_cons]
    rw [ih]
    simp [joinCookiePieces, List.append_assoc]

/-- C7: the header list handed to the engine is exactly one
`"<key>: <value>"` entry per header-map entry (in map iteration order) plus
exactly one synthetic `"Cookie: "` header, placed last, whose body joins the
cookie map in iteration order as `k1=v1; k2=v2; `; with both maps empty the
list is still `["Cookie: "]`. -/
theorem prepared_header_list_shape (hm cm : List (List Char × List Char)) :
    buildCurlHeaders hm cm =
      (hm.map fun kv => kv.1 ++ ": ".data ++ kv.2) ++
        ["Cookie: ".data ++ joinCookiePieces cm] ∧
    buildCurlHeaders [] [] = ["Cookie: ".data] := by
  constructor
  · show slistAppend
      (hm.foldl (fun acc kv => slistAppend acc (kv.1 ++ ": ".data ++ kv.2)) [])
      (cm.foldl (fun acc kv => acc ++ kv.1 ++ "=".data ++ kv.2 ++ "; ".data)
        "Cookie: ".data) = _
    rw [foldl_slistAppend (fun kv => kv.1 ++ ": ".data ++ kv.2) hm [],
      foldl_cookiePieces cm "Cookie: ".data]
    simp [slistAppend]
  · decide

/-- C8: the header list emitted by a dispatch is derived only from the
header and cookie maps as they stand at that dispatch's start — it is
rebuilt from scratch, ignoring (and replacing) any allocation saved by a
previous dispatch — so two Requests agreeing on their maps emit identical
lists regardless of their saved `curl_headers` state, and the new allocation
is installed in the instance. -/
theorem header_list_reset (r r' : Request)
    (hh : r.headers = r'.headers) (hc : r.cookies = r'.cookies) :
    (prepareHeaders r).2 = (prepareHeaders r').2 ∧
    (prepareHeaders r).2 = buildCurlHeaders r.headers r.cookies ∧
    (prepareHeaders r).1.curl_headers = (prepareHeaders r).2 := by
  unfold prepareHeaders
  exact ⟨by rw [hh, hc], rfl, rfl⟩

theorem header_list_reset_witness :
    (prepareHeaders ⟨"u".data, "d".data, [("Y".data, "2".data)], [],
        ["X: 1".data, "Cookie: ".data]⟩).2 =
      (prepareHeaders ⟨"u".data, "d".data, [("Y".data, "2".data)], [], []⟩).2 ∧
    (prepareHeaders ⟨"u".data, "d".data, [("Y".data, "2".data)], [],
        ["X: 1".data, "Cookie: ".data]⟩).2 =
      buildCurlHeaders [("Y".data, "2".data)] [] ∧
    (prepareHeaders ⟨"u".data, "d".data, [("Y".data, "2".data)], [],
        ["X: 1".data, "Cookie: ".data]⟩).1.curl_headers =
      (prepareHeaders ⟨"u".data, "d".data, [("Y".data, "2".data)], [],
        ["X: 1".data, "Cookie: ".data]⟩).2 :=
  header_list_reset
    ⟨"u".data, "d".data, [("Y".data, "2".data)], [], ["X: 1".data, "Cookie: ".data]⟩
    ⟨"u".data, "d".data, [("Y".data, "2".data)], [], []⟩ rfl rfl

theorem splitFirst_none_decomp (d : Char) :
    ∀ (l pre : List Char), splitFirst d l = (pre, none) → pre = l ∧ d ∉ l := by
  intro l
  induction l with
  | nil =>
    intro pre h
    injection h with h1 _
    exact ⟨h1.symm, List.not_mem_nil d⟩
  | cons c cs ih =>
    intro pre h
    by_cases hc : c = d
    · simp [splitFirst, hc] at h
    · simp only [splitFirst, if_neg hc] at h
      injection h with h1 h2
      rcases hs : splitFirst d cs with ⟨pre2, r2?⟩
      rw [hs] at h1 h2
      simp only at h1 h2
      obtain ⟨hp, hm⟩ := ih pre2 (by rw [hs, h2])
      subst h1
      refine ⟨by rw [hp], ?_⟩
      intro hmem
      rcases List.mem_cons.mp hmem with h' | h'
      · exact hc h'.symm
      · exact hm h'

theorem firstLine_append (a b : List Char) (h : '\n' ∉ a) :
    firstLine (a ++ '\n' :: b) = a := by
  unfold firstLine
  rw [show Sstream.ofChars (a ++ '\n' :: b) = ⟨a ++ '\n' :: b, false, false⟩ from rfl]
  rw [sgetline_found a b [] '\n' h]

theorem parseStatusLine_def (line : List Char) :
    parseStatusLine line =
      (stoiOpt (upToFirstSpace (afterFirstSpace line))).map
        (fun code => (code, afterFirstSpace (afterFirstSpace line))) := rfl

/-- C4 (amended): the status line is read up to the first LF (the carriage
return is NOT stripped).  With a reason phrase, `code` is the `stoi` of the
token between the first two spaces and `message` is everything after the
second space including the trailing `\r`; without a reason phrase, the
whole token after the first space (code digits plus `\r`) serves as both the
code string (its digits still parse) and the message, so `message` equals
the code token with its carriage return rather than being empty. -/
theorem status_line_parse_amended :
    (∀ (v c r rest body : List Char) (n : Int),
        ' ' ∉ v → '\n' ∉ v → ' ' ∉ c → '\n' ∉ c → '\n' ∉ r →
        stoiOpt c = some n →
        (execute ⟨0, body, v ++ ' ' :: c ++ ' ' :: r ++ '\r' :: '\n' :: rest⟩).map
            Response.code = some n ∧
          (execute ⟨0, body, v ++ ' ' :: c ++ ' ' :: r ++ '\r' :: '\n' :: rest⟩).map
            Response.message = some (r ++ ['\r'])) ∧
    (∀ (v c rest body : List Char) (n : Int),
        ' ' ∉ v → '\n' ∉ v → ' ' ∉ c → '\n' ∉ c →
        stoiOpt (c ++ ['\r']) = some n →
        (execute ⟨0, body, v ++ ' ' :: c ++ '\r' :: '\n' :: rest⟩).map
            Response.code = some n ∧
          (execute ⟨0, body, v ++ ' ' :: c ++ '\r' :: '\n' :: rest⟩).map
            Response.message = some (c ++ ['\r'])) := by
  constructor
  · intro v c r rest body n hv hvn hc hcn hrn hstoi
    have hdr_eq : v ++ ' ' :: c ++ ' ' :: r ++ '\r' :: '\n' :: rest =
        (v ++ ' ' :: c ++ ' ' :: r ++ ['\r']) ++ '\n' :: rest := by
      simp [List.append_assoc]
    have ha : '\n' ∉ v ++ ' ' :: c := by
      intro hm
      rcases List.mem_append.mp hm with h1 | h1
      · exact hvn h1
      · rcases List.mem_cons.mp h1 with h2 | h2
        · exact absurd h2 (by decide)
        · exact hcn h2
    have hb : '\n' ∉ (v ++ ' ' :: c) ++ ' ' :: r := by
      intro hm
      rcases List.mem_append.mp hm with h1 | h1
      · exact ha h1
      · rcases List.mem_cons.mp h1 with h2 | h2
        · exact absurd h2 (by decide)
        · exact hrn h2
    have hline : '\n' ∉ v ++ ' ' :: c ++ ' ' :: r ++ ['\r'] := by
      intro hm
      rcases List.mem_append.mp hm with h1 | h1
      · exact hb h1
      · exact absurd (List.mem_singleton.mp h1) (by decide)
    have hfl : firstLine (v ++ ' ' :: c ++ ' ' :: r ++ '\r' :: '\n' :: rest) =
        v ++ ' ' :: c ++ ' ' :: r ++ ['\r'] := by
      rw [hdr_eq, firstLine_append _ _ hline]
    have hpsl : parseStatusLine (v ++ ' ' :: c ++ ' ' :: r ++ ['\r']) =
        some (n, r ++ ['\r']) := by
      rw [parseStatusLine_def]
      rw [show v ++ ' ' :: c ++ ' ' :: r ++ ['\r'] =
          v ++ ' ' :: (c ++ ' ' :: (r ++ ['\r'])) from by simp]
      rw [afterFirstSpace_append v _ hv]
      rw [afterFirstSpace_append c _ hc]
      rw [upToFirstSpace_append c _ hc]
      rw [hstoi]
      rfl
    rw [execute_ok, hfl, hpsl]
    exact ⟨rfl, rfl⟩
  · intro v c rest body n hv hvn hc hcn hstoi
    have hdr_eq : v ++ ' ' :: c ++ '\r' :: '\n' :: rest =
        (v ++ ' ' :: c ++ ['\r']) ++ '\n' :: rest := by
      simp [List.append_assoc]
    have ha : '\n' ∉ v ++ ' ' :: c := by
      intro hm
      rcases List.mem_append.mp hm with h1 | h1
      · exact hvn h1
      · rcases List.mem_cons.mp h1 with h2 | h2
        · exact absurd h2 (by decide)
        · exact hcn h2
    have hline : '\n' ∉ v ++ ' ' :: c ++ ['\r'] := by
      intro hm
      rcases List.mem_append.mp hm with h1 | h1
      · exact ha h1
      · exact absurd (List.mem_singleton.mp h1) (by decide)
    have hfl : firstLine (v ++ ' ' :: c ++ '\r' :: '\n' :: rest) =
        v ++ ' ' :: c ++ ['\r'] := by
      rw [hdr_eq, firstLine_append _ _ hline]
    have hnos : ' ' ∉ c ++ ['\r'] := by
      intro hmem
      simp only [List.mem_append, List.mem_singleton] at hmem
      rcases hmem with h1 | h1
      · exact hc h1
      · exact absurd h1 (by decide)
    have hpsl : parseStatusLine (v ++ ' ' :: c ++ ['\r']) =
        some (n, c ++ ['\r']) := by
      rw [parseStatusLine_def]
      rw [show v ++ ' ' :: c ++ ['\r'] = v ++ ' ' :: (c ++ ['\r']) from by simp]
      rw [afterFirstSpace_append v _ hv]
      rw [afterFirstSpace_no_space _ hnos]
      rw [upToFirstSpace_no_space _ hnos]
      rw [hstoi]
      rfl
    rw [execute_ok, hfl, hpsl]
    exact ⟨rfl, rfl⟩

theorem status_line_parse_amended_witness :
    ((execute ⟨0, [], "HTTP/1.1".data ++ ' ' :: "200".data ++ ' ' :: "OK".data ++
          '\r' :: '\n' :: "\r\n".data⟩).map Response.code = some 200 ∧
      (execute ⟨0, [], "HTTP/1.1".data ++ ' ' :: "200".data ++ ' ' :: "OK".data ++
          '\r' :: '\n' :: "\r\n".data⟩).map Response.message =
        some ("OK".data ++ ['\r'])) ∧
    ((execute ⟨0, [], "HTTP/1.1".data ++ ' ' :: "200".data ++
          '\r' :: '\n' :: "\r\n".data⟩).map Response.code = some 200 ∧
      (execute ⟨0, [], "HTTP/1.1".data ++ ' ' :: "200".data ++
          '\r' :: '\n' :: "\r\n".data⟩).map Response.message =
        some ("200".data ++ ['\r'])) :=
  ⟨status_line_parse_amended.1 "HTTP/1.1".data "200".data "OK".data "\r\n".data
      [] 200 (by decide) (by decide) (by decide) (by decide) (by decide) (by decide),
    status_line_parse_amended.2 "HTTP/1.1".data "200".data "\r\n".data
      [] 200 (by decide) (by decide) (by decide) (by decide) (by decide)⟩

/-- What the header-line value extraction actually computes from the
remainder after the first `:`: consume through the first space when there is
one and read up to the next `\r`; with no space the whole remainder
(carriage return included) is kept. -/
def headerLineValue (rest : List Char) : List Char :=
  match splitFirst ' ' rest with
  | (_, some r2) => (splitFirst '\r' r2).1
  | (_, none) => rest

/-- C5 (amended): a header line is split on the first `:` into name and
remainder; the remainder is consumed up to and including its FIRST space
(not exactly one space), and the value is then read up to the next carriage
return — when the remainder holds no space at all, the failing reads leave
the value as the entire remainder, carriage return included.  A `:` inside
the value is preserved; only a header line whose `:` is immediately followed
by a space gets the claimed one-space behavior. -/
theorem header_line_parse_amended (name rest : List Char)
    (hm cm : List (List Char × List Char)) (hname : ':' ∉ name) :
    (processLine (name ++ ':' :: rest) hm cm).1 =
      mapInsert hm (toLowerChars name) (headerLineValue rest) := by
  simp only [processLine]
  rw [show Sstream.ofChars (name ++ ':' :: rest) =
      ⟨name ++ ':' :: rest, false, false⟩ from rfl]
  rw [sgetline_found name rest [] ':' hname]
  simp only
  unfold headerLineValue
  rcases hs : splitFirst ' ' rest with ⟨pre, r2?⟩
  cases r2? with
  | some r2 =>
    have h2 : sgetline ⟨rest, false, false⟩ [] ' ' = (⟨r2, false, false⟩, pre, true) := by
      unfold sgetline
      simp [hs]
    rw [h2]
    simp only
    rcases ht : splitFirst '\r' r2 with ⟨pre2, r3?⟩
    cases r3? with
    | some r3 =>
      have h3 : sgetline ⟨r2, false, false⟩ pre '\r' =
          (⟨r3, false, false⟩, pre2, true) := by
        unfold sgetline
        simp [ht]
      rw [h3]
    | none =>
      obtain ⟨hpe, hdn⟩ := splitFirst_none_decomp '\r' r2 pre2 ht
      by_cases hr2 : r2 = []
      · subst hr2
        rw [sgetline_empty pre '\r']
        simp only
        rw [hpe]
      · rw [sgetline_to_eof r2 pre '\r' hdn hr2]
        simp only
        rw [hpe]
  | none =>
    obtain ⟨hpe, hdn⟩ := splitFirst_none_decomp ' ' rest pre hs
    by_cases hr : rest = []
    · subst hr
      rw [sgetline_empty [] ' ']
      simp only
      rw [sgetline_failb [] true [] '\r']
    · rw [sgetline_to_eof rest [] ' ' hdn hr]
      simp only
      rw [sgetline_eofb [] false rest '\r']

theorem header_line_parse_amended_witness :
    (processLine ("Foo".data ++ ':' :: "bar\r".data) [] []).1 =
      mapInsert [] (toLowerChars "Foo".data) (headerLineValue "bar\r".data) :=
  header_line_parse_amended "Foo".data "bar\r".data [] [] (by decide)

/-- Render a list of cookie pairs the way a server writes a `Set-Cookie`
value: `k1=v1; k2=v2; ...` (separator `"; "`, no trailing separator). -/
def renderCookies : List (List Char × List Char) → List Char
  | [] => []
  | [kv] => kv.1 ++ '=' :: kv.2
  | kv :: ps => kv.1 ++ '=' :: (kv.2 ++ ';' :: ' ' :: renderCookies ps)

theorem cookieLoop_dead (rem : List Char) (eb fb : Bool) (c : List Char)
    (m : List (List Char × List Char)) (h : (eb || fb) = true) :
    cookieLoop ⟨rem, eb, fb⟩ c m = m := by
  rw [cookieLoop_eq]
  rcases Bool.or_eq_true_iff.mp h with h1 | h1
  · subst h1
    rw [sgetline_eofb rem fb c '=']
    rfl
  · subst h1
    rw [sgetline_failb rem eb c '=']
    rfl

theorem cookieLoop_empty (c : List Char) (m : List (List Char × List Char)) :
    cookieLoop ⟨[], false, false⟩ c m = m := by
  rw [cookieLoop_eq, sgetline_empty c '=']
  rfl

theorem cookieLoop_last (k v : List Char) (c : List Char)
    (m : List (List Char × List Char)) (hk : '=' ∉ k) (hv : ';' ∉ v) :
    cookieLoop ⟨k ++ '=' :: v, false, false⟩ c m = mapInsert m k v := by
  rw [cookieLoop_eq, sgetline_found k v c '=' hk]
  simp only [if_true]
  by_cases hveq : v = []
  · subst hveq
    rw [sgetline_empty [] ';']
    simp only
    rw [sgetline_failb [] true [] ' ']
    simp only
    exact cookieLoop_dead [] true true k _ (by decide)
  · rw [sgetline_to_eof v [] ';' hv hveq]
    simp only
    rw [sgetline_eofb [] false v ' ']
    simp only
    exact cookieLoop_dead [] true true k _ (by decide)

theorem cookieLoop_step (k v rest : List Char) (c : List Char)
    (m : List (List Char × List Char)) (hk : '=' ∉ k) (hv : ';' ∉ v) :
    cookieLoop ⟨k ++ '=' :: (v ++ ';' :: ' ' :: rest), false, false⟩ c m =
      cookieLoop ⟨rest, false, false⟩ k (mapInsert m k v) := by
  rw [cookieLoop_eq, sgetline_found k (v ++ ';' :: ' ' :: rest) c '=' hk]
  simp only [if_true]
  rw [sgetline_found v (' ' :: rest) [] ';' hv]
  simp only
  have h3 : sgetline ⟨' ' :: rest, false, false⟩ v ' ' =
      (⟨rest, false, false⟩, [], true) := by
    have := sgetline_found [] rest v ' ' (List.not_mem_nil ' ')
    simpa using this
  rw [h3]

theorem cookieLoop_render :
    ∀ (ps : List (List Char × List Char)),
      (∀ kv ∈ ps, '=' ∉ kv.1 ∧ ';' ∉ kv.2) →
      ∀ (c : List Char) (m : List (List Char × List Char)),
        cookieLoop ⟨renderCookies ps, false, false⟩ c m =
          ps.foldl (fun m kv => mapInsert m kv.1 kv.2) m := by
  intro ps
  induction ps with
  | nil =>
    intro _ c m
    exact cookieLoop_empty c m
  | cons p ps ih =>
    intro hwf c m
    have hp := hwf p (List.mem_cons_self p ps)
    cases ps with
    | nil =>
      show cookieLoop ⟨p.1 ++ '=' :: p.2, false, false⟩ c m = _
      rw [cookieLoop_last p.1 p.2 c m hp.1 hp.2]
      rfl
    | cons q qs =>
      show cookieLoop ⟨p.1 ++ '=' :: (p.2 ++ ';' :: ' ' :: renderCookies (q :: qs)),
          false, false⟩ c m = _
      rw [cookieLoop_step p.1 p.2 (renderCookies (q :: qs)) c m hp.1 hp.2]
      rw [ih (fun kv hkv => hwf kv (List.mem_cons_of_mem p hkv)) p.1
        (mapInsert m p.1 p.2)]
      rfl

theorem mapFind_foldl_not_mem :
    ∀ (ps : List (List Char × List Char)) (k : List Char),
      k ∉ ps.map Prod.fst →
      ∀ m, mapFind (ps.foldl (fun m kv => mapInsert m kv.1 kv.2) m) k = mapFind m k := by
  intro ps
  induction ps with
  | nil => intro k _ m; rfl
  | cons p ps ih =>
    intro k hk m
    have hk1 : k ≠ p.1 := by
      intro h
      exact hk (by rw [List.map_cons]; exact h ▸ List.mem_cons_self _ _)
    have hk2 : k ∉ ps.map Prod.fst := by
      intro h
      exact hk (by rw [List.map_cons]; exact List.mem_cons_of_mem _ h)
    show mapFind (ps.foldl _ (mapInsert m p.1 p.2)) k = mapFind m k
    rw [ih k hk2 (mapInsert m p.1 p.2)]
    exact mapFind_mapInsert_ne m k p.1 p.2 hk1

theorem mapFind_foldl_mem :
    ∀ (ps : List (List Char × List Char)),
      (ps.map Prod.fst).Nodup →
      ∀ kv ∈ ps, ∀ m,
        mapFind (ps.foldl (fun m kv => mapInsert m kv.1 kv.2) m) kv.1 = some kv.2 := by
  intro ps
  induction ps with
  | nil => intro _ kv hkv; exact absurd hkv (List.not_mem_nil kv)
  | cons p ps ih =>
    intro hnd kv hkv m
    rw [List.map_cons, List.nodup_cons] at hnd
    rcases List.mem_cons.mp hkv with h | h
    · subst h
      show mapFind (ps.foldl _ (mapInsert m kv.1 kv.2)) kv.1 = some kv.2
      rw [mapFind_foldl_not_mem ps kv.1 hnd.1 (mapInsert m kv.1 kv.2)]
      exact mapFind_mapInsert_self m kv.1 kv.2
    · exact ih hnd.2 kv h (mapInsert m p.1 p.2)

/-- C6: the `Set-Cookie` subparser reads the header value as `k=v` pairs
separated by `";"` followed by one space, and records every pair — cookie
attributes included — in the cookies map; in particular the value
`sid=abc; Path=/; HttpOnly` produces exactly the cookies `sid=abc`,
`Path=/` and `HttpOnly` with an empty value. -/
theorem set_cookie_records_every_pair :
    (∀ ps : List (List Char × List Char),
        (∀ kv ∈ ps, '=' ∉ kv.1 ∧ ';' ∉ kv.2) →
        (ps.map Prod.fst).Nodup →
        ∀ kv ∈ ps,
          mapFind (cookieLoop (Sstream.ofChars (renderCookies ps)) [] []) kv.1 =
            some kv.2) ∧
    (execute ⟨0, [],
        "HTTP/1.1 200 OK\r\nSet-Cookie: sid=abc; Path=/; HttpOnly\r\n\r\n".data⟩).map
        Response.cookies =
      some [("HttpOnly".data, []), ("Path".data, "/".data), ("sid".data, "abc".data)] := by
  constructor
  · intro ps hwf hnd kv hkv
    rw [show Sstream.ofChars (renderCookies ps) =
        ⟨renderCookies ps, false, false⟩ from rfl]
    rw [cookieLoop_render ps hwf [] []]
    exact mapFind_foldl_mem ps hnd kv hkv []
  · decide

theorem set_cookie_records_every_pair_witness :
    mapFind (cookieLoop (Sstream.ofChars
        (renderCookies [("sid".data, "abc".data), ("a b".data, "c=d".data)])) [] [])
      "a b".data = some "c=d".data :=
  set_cookie_records_every_pair.1
    [("sid".data, "abc".data), ("a b".data, "c=d".data)]
    (by decide) (by decide) ("a b".data, "c=d".data) (by decide)

theorem findFromF_minimal :
    ∀ (fuel : Nat) (hay needle : List Char) (pos i : Nat),
      findFromF fuel hay needle pos = some i →
      ∀ j, pos ≤ j → j < i → needle.isPrefixOf (hay.drop j) = false := by
  intro fuel
  induction fuel with
  | zero => intro hay needle pos i h; simp [findFromF] at h
  | succ fuel ih =>
    intro hay needle pos i h j hj1 hj2
    rw [findFromF] at h
    by_cases hlt : hay.length < pos
    · rw [if_pos hlt] at h; exact absurd h (by simp)
    · rw [if_neg hlt] at h
      by_cases hpre : needle.isPrefixOf (hay.drop pos) = true
      · rw [if_pos hpre] at h
        have : pos = i := by simpa using h
        omega
      · rw [if_neg hpre] at h
        by_cases hjp : j = pos
        · subst hjp; exact (Bool.not_eq_true _).mp hpre
        · exact ih hay needle (pos + 1) i h j (by omega) hj2

theorem findFrom_minimal (hay needle : List Char) (pos i : Nat)
    (h : findFrom hay needle pos = some i) :
    ∀ j, pos ≤ j → j < i → needle.isPrefixOf (hay.drop j) = false :=
  findFromF_minimal _ hay needle pos i h

theorem isPrefixOf_nil_false (needle : List Char) (h : needle ≠ []) :
    needle.isPrefixOf ([] : List Char) = false := by
  cases needle with
  | nil => exact absurd rfl h
  | cons c cs => rfl

theorem findFromF_none :
    ∀ (fuel : Nat) (hay needle : List Char) (pos : Nat), needle ≠ [] →
      hay.length + 1 - pos < fuel →
      findFromF fuel hay needle pos = none →
      ∀ j, pos ≤ j → needle.isPrefixOf (hay.drop j) = false := by
  intro fuel
  induction fuel with
  | zero => intro hay needle pos _ hf; omega
  | succ fuel ih =>
    intro hay needle pos hne hf h j hj
    rw [findFromF] at h
    by_cases hlt : hay.length < pos
    · have hd : hay.drop j = [] := List.drop_eq_nil_of_le (by omega)
      rw [hd]
      exact isPrefixOf_nil_false needle hne
    · rw [if_neg hlt] at h
      by_cases hpre : needle.isPrefixOf (hay.drop pos) = true
      · rw [if_pos hpre] at h; exact absurd h (by simp)
      · rw [if_neg hpre] at h
        by_cases hjp : j = pos
        · subst hjp; exact (Bool.not_eq_true _).mp hpre
        · exact ih hay needle (pos + 1) hne (by omega) h j (by omega)

theorem findFrom_none (hay : List Char) (pos : Nat)
    (h : findFrom hay "group".data pos = none) :
    ∀ j, pos ≤ j → ("group".data).isPrefixOf (hay.drop j) = false := by
  intro j hj
  by_cases hp : pos ≤ hay.length + 1
  · exact findFromF_none (hay.length + 2 - pos) hay "group".data pos (by decide)
      (by omega) h j hj
  · have hd : hay.drop j = [] := List.drop_eq_nil_of_le (by omega)
    rw [hd]
    decide

theorem drop_succ_tail (l : List Char) (n : Nat) :
    l.drop (n + 1) = (l.drop n).tail := by
  rw [← List.drop_drop 1 n l, List.drop_one]

theorem countOcc_drop_nomatch (data : List Char) (j : Nat)
    (hj : ("group".data).isPrefixOf (data.drop j) = false) :
    countOcc (data.drop j) = countOcc (data.drop (j + 1)) := by
  cases hd : data.drop j with
  | nil =>
    have h1 : data.drop (j + 1) = [] := by
      rw [drop_succ_tail, hd]; rfl
    rw [h1]
  | cons c cs =>
    rw [hd] at hj
    have hj2 : (['g', 'r', 'o', 'u', 'p'] : List Char).isPrefixOf (c :: cs) = false := hj
    rw [countOcc_eq]
    simp only [hj2, Bool.false_eq_true, if_false]
    have h1 : data.drop (j + 1) = cs := by
      rw [drop_succ_tail, hd]; rfl
    rw [h1]

theorem countOcc_drop_match (data : List Char) (i : Nat)
    (hp : ("group".data).isPrefixOf (data.drop i) = true) :
    countOcc (data.drop i) = 1 + countOcc (data.drop (i + 5)) := by
  cases hd : data.drop i with
  | nil =>
    rw [hd] at hp
    exact absurd hp (by decide)
  | cons c cs =>
    rw [hd] at hp
    have hp2 : (['g', 'r', 'o', 'u', 'p'] : List Char).isPrefixOf (c :: cs) = true := hp
    rw [countOcc_eq]
    simp only [hp2, if_true]
    have h5 : (c :: cs).drop 5 = data.drop (i + 5) := by
      rw [← hd, List.drop_drop]
    rw [h5]

theorem countOcc_drop_interval :
    ∀ (k : Nat) (data : List Char) (pos : Nat),
      (∀ j, pos ≤ j → j < pos + k → ("group".data).isPrefixOf (data.drop j) = false) →
      countOcc (data.drop pos) = countOcc (data.drop (pos + k)) := by
  intro k
  induction k with
  | zero => intro data pos _; rfl
  | succ k ih =>
    intro data pos h
    rw [countOcc_drop_nomatch data pos (h pos (le_refl pos) (by omega))]
    have h2 := ih data (pos + 1) (fun j hj1 hj2 => h j (by omega) (by omega))
    rw [h2, show pos + 1 + k = pos + (k + 1) from by omega]

theorem countGroupsFromF_eq_countOcc :
    ∀ (fuel : Nat) (data : List Char) (pos : Nat),
      data.length + 5 - pos < fuel →
      countGroupsFromF fuel data pos = countOcc (data.drop pos) := by
  intro fuel
  induction fuel with
  | zero => intro data pos h; omega
  | succ fuel ih =>
    intro data pos h
    simp only [countGroupsFromF]
    rcases hfind : findFrom data "group".data pos with _ | i
    · show (0 : Nat) = countOcc (data.drop pos)
      have hall := findFrom_none data pos hfind
      have hk := countOcc_drop_interval (data.length + 1 - pos) data pos
        (fun j hj1 _ => hall j hj1)
      have hnil : data.drop (pos + (data.length + 1 - pos)) = [] :=
        List.drop_eq_nil_of_le (by omega)
      rw [hk, hnil]
      rfl
    · obtain ⟨h1, h2, h3⟩ := findFrom_some data "group".data pos i hfind
      have hmin := findFrom_minimal data "group".data pos i hfind
      show 1 + countGroupsFromF fuel data (i + 5) = countOcc (data.drop pos)
      rw [ih data (i + 5) (by omega)]
      have hiv := countOcc_drop_interval (i - pos) data pos
        (fun j hj1 hj2 => hmin j hj1 (by omega))
      rw [show pos + (i - pos) = i from by omega] at hiv
      rw [hiv, countOcc_drop_match data i h3]

theorem countGroupsFrom_eq_countOcc (data : List Char) :
    countGroupsFrom data 0 = countOcc data := by
  have h := countGroupsFromF_eq_countOcc (data.length + 6) data 0 (by omega)
  show countGroupsFromF (data.length + 6 - 0) data 0 = countOcc data
  rw [show data.length + 6 - 0 = data.length + 6 from rfl, h, List.drop_zero]

/-- C9: `GetGroupsCount` returns the number of non-overlapping occurrences
of the literal substring `group` in the raw response body text — the
find/advance loop coincides with the left-to-right disjoint-occurrence
count — rather than the length of the decoded document's roles array: on a
body whose `data` array has exactly one element the operation returns 2,
inflated by the `group` inside an unrelated token (`my group`). -/
theorem groups_count_is_substring_count :
    (∀ e : EngineBehavior,
        GetGroupsCount e = (execute e).map fun resp => countOcc resp.data) ∧
    GetGroupsCount ⟨0,
        "\x7b\"data\":[\x7b\"group\":\x7b\"name\":\"my group\"\x7d\x7d]\x7d".data,
        "HTTP/1.1 200 OK\r\n\r\n".data⟩ = some 2 := by
  constructor
  · intro e
    unfold GetGroupsCount
    cases execute e with
    | none => rfl
    | some resp => simp [countGroupsFrom_eq_countOcc]
  · decide

/-- Fuel-indexed splitting of a block into the lines successively extracted
by `while (std::getline(ss, line))` with delimiter `\n` (the final fragment
is kept when nonempty; a trailing delimiter yields no extra empty line
because the next read fails).  `linesOf` below always supplies enough
fuel. -/
def linesOfF : Nat → List Char → List (List Char)
  | 0, _ => []
  | fuel + 1, l =>
    match splitFirst '\n' l with
    | (pre, some rest) => pre :: linesOfF fuel rest
    | (pre, none) => if pre.isEmpty then [] else [pre]

/-- The lines a `getline` loop extracts from a block. -/
def linesOf (l : List Char) : List (List Char) := linesOfF (l.length + 1) l

theorem linesOfF_congr :
    ∀ (fuel fuel' : Nat) (l : List Char),
      l.length < fuel → l.length < fuel' → linesOfF fuel l = linesOfF fuel' l := by
  intro fuel
  induction fuel with
  | zero => intro fuel' l h; omega
  | succ fuel ih =>
    intro fuel' l h h'
    cases fuel' with
    | zero => omega
    | succ fuel' =>
      simp only [linesOfF]
      rcases hs : splitFirst '\n' l with ⟨pre, rest?⟩
      cases rest? with
      | some rest =>
        have hlt := splitFirst_rest_length '\n' l rest (by rw [hs])
        show pre :: linesOfF fuel rest = pre :: linesOfF fuel' rest
        rw [ih fuel' rest (by omega) (by omega)]
      | none => rfl

/-- One-step unfolding of `linesOf`. -/
theorem linesOf_eq (l : List Char) :
    linesOf l =
      (match splitFirst '\n' l with
       | (pre, some rest) => pre :: linesOf rest
       | (pre, none) => if pre.isEmpty then [] else [pre]) := by
  show linesOfF (l.length + 1) l = _
  simp only [linesOfF]
  rcases hs : splitFirst '\n' l with ⟨pre, rest?⟩
  cases rest? with
  | some rest =>
    have hlt := splitFirst_rest_length '\n' l rest (by rw [hs])
    show pre :: linesOfF l.length rest = pre :: linesOfF (rest.length + 1) rest
    rw [linesOfF_congr l.length (rest.length + 1) rest (by omega) (by omega)]
  | none => rfl

theorem headerLoop_dead (rem : List Char) (eb fb : Bool) (line : List Char)
    (hm cm : List (List Char × List Char)) (h : (eb || fb) = true) :
    headerLoop ⟨rem, eb, fb⟩ line hm cm = (hm, cm) := by
  rw [headerLoop_eq]
  rcases Bool.or_eq_true_iff.mp h with h1 | h1
  · subst h1
    rw [sgetline_eofb rem fb line '\n']
    rfl
  · subst h1
    rw [sgetline_failb rem eb line '\n']
    rfl

/-- The header loop of `execute` processes exactly the lines of the received
block — the status line and any final blank fragment included. -/
theorem headerLoop_as_fold :
    ∀ (n : Nat) (l : List Char), l.length ≤ n →
      ∀ (line : List Char) (hm cm : List (List Char × List Char)),
        headerLoop ⟨l, false, false⟩ line hm cm =
          (linesOf l).foldl (fun p ln => processLine ln p.1 p.2) (hm, cm) := by
  intro n
  induction n with
  | zero =>
    intro l hl line hm cm
    have hl0 : l = [] := List.eq_nil_of_length_eq_zero (Nat.le_zero.mp hl)
    subst hl0
    rw [headerLoop_eq, sgetline_empty line '\n']
    rfl
  | succ n ih =>
    intro l hl line hm cm
    rcases hs : splitFirst '\n' l with ⟨pre, rest?⟩
    cases rest? with
    | some rest =>
      obtain ⟨hdec, hnm⟩ := splitFirst_some_decomp '\n' l pre rest hs
      have hg : sgetline ⟨l, false, false⟩ line '\n' =
          (⟨rest, false, false⟩, pre, true) := by
        unfold sgetline
        simp [hs]
      rw [headerLoop_eq, hg]
      simp only [if_true]
      have hrl : rest.length ≤ n := by
        have := splitFirst_rest_length '\n' l rest (by rw [hs])
        omega
      rw [ih rest hrl pre (processLine pre hm cm).1 (processLine pre hm cm).2]
      rw [linesOf_eq l, hs]
      simp [List.foldl_cons]
    | none =>
      obtain ⟨hpe, hnm⟩ := splitFirst_none_decomp '\n' l pre hs
      by_cases hl0 : l = []
      · subst hl0
        rw [headerLoop_eq, sgetline_empty line '\n']
        rfl
      · rw [headerLoop_eq, sgetline_to_eof l line '\n' hnm hl0]
        simp only [if_true]
        rw [headerLoop_dead [] true false l _ _ (by decide)]
        rw [linesOf_eq l, hs]
        have hpne : pre.isEmpty = false := by
          rw [hpe]
          exact List.isEmpty_eq_false.mpr hl0
        simp [hpne, hpe, hl0, List.foldl_cons, Prod.mk.eta]

theorem toLowerChar_eq_cr (c : Char) (h : toLowerChar c = '\r') : c = '\r' := by
  unfold toLowerChar at h
  by_cases hr : 'A' ≤ c ∧ c ≤ 'Z'
  · rw [if_pos hr] at h
    exfalso
    have h65 : 65 ≤ c.toNat := hr.1
    have h90 : c.toNat ≤ 90 := hr.2
    have hvalid : (c.toNat + 32).isValidChar := by left; omega
    have hv : (Char.ofNat (c.toNat + 32)).toNat = c.toNat + 32 := by
      rw [Char.ofNat, dif_pos hvalid]
      rw [Char.ofNatAux, Char.toNat]
      exact BitVec.toNat_ofNatLt _ _
    rw [h] at hv
    have h13 : ('\r').toNat = 13 := rfl
    omega
  · rwa [if_neg hr] at h

theorem toLowerChars_mem_cr (l : List Char) (h : '\r' ∈ toLowerChars l) :
    '\r' ∈ l := by
  unfold toLowerChars at h
  obtain ⟨c, hc, he⟩ := List.mem_map.mp h
  exact (toLowerChar_eq_cr c he) ▸ hc

theorem toLowerChars_append_cr (l : List Char) :
    toLowerChars (l ++ ['\r']) = toLowerChars l ++ ['\r'] := by
  unfold toLowerChars
  rw [List.map_append]
  rfl

theorem mapFind_insert_keep (m : List (List Char × List Char))
    (K k v : List Char) (hv : v = [] ∨ K ≠ k) (h : mapFind m K = some []) :
    mapFind (mapInsert m k v) K = some [] := by
  rcases hv with hv | hv
  · subst hv
    by_cases hk : K = k
    · subst hk
      exact mapFind_mapInsert_self m K []
    · rw [mapFind_mapInsert_ne m K k [] hk]
      exact h
  · rw [mapFind_mapInsert_ne m K k v hv]
    exact h

/-- A line with no colon inserts its whole lowercased text with an empty
value. -/
theorem processLine_no_colon (l : List Char)
    (hm cm : List (List Char × List Char)) (hnc : ':' ∉ l) (hl0 : l ≠ []) :
    (processLine l hm cm).1 = mapInsert hm (toLowerChars l) [] := by
  simp only [processLine]
  rw [show Sstream.ofChars l = ⟨l, false, false⟩ from rfl]
  rw [sgetline_to_eof l [] ':' hnc hl0]
  simp only
  rw [sgetline_eofb [] false [] ' ']
  simp only
  rw [sgetline_eofb [] true [] '\r']

/-- Processing any line whose carriage returns sit only at its very end
preserves the binding `K ↦ ""` for any key `K` containing `\r`: a colon
line's key cannot contain `\r`, and a colonless line always inserts the
empty value. -/
theorem processLine_preserves_cr_key (l : List Char)
    (hm cm : List (List Char × List Char)) (K : List Char)
    (hK : '\r' ∈ K) (hcr : '\r' ∉ l.dropLast) (h : mapFind hm K = some []) :
    mapFind (processLine l hm cm).1 K = some [] := by
  rcases hs : splitFirst ':' l with ⟨pre, r2?⟩
  cases r2? with
  | some r2 =>
    obtain ⟨hdec, hnm⟩ := splitFirst_some_decomp ':' l pre r2 hs
    have hpre_cr : '\r' ∉ pre := by
      intro hmem
      apply hcr
      rw [hdec, List.dropLast_append_of_ne_nil pre (by simp)]
      exact List.mem_append_left _ hmem
    have hkey_ne : K ≠ toLowerChars pre := by
      intro he
      exact hpre_cr (toLowerChars_mem_cr pre (he ▸ hK))
    simp only [processLine]
    rw [show Sstream.ofChars l = ⟨l, false, false⟩ from rfl, hdec]
    rw [sgetline_found pre r2 [] ':' hnm]
    simp only
    rw [mapFind_mapInsert_ne hm K (toLowerChars pre) _ hkey_ne]
    exact h
  | none =>
    obtain ⟨hpe, hnm⟩ := splitFirst_none_decomp ':' l pre hs
    by_cases hl0 : l = []
    · subst hl0
      simp only [processLine]
      rw [show Sstream.ofChars ([] : List Char) = ⟨[], false, false⟩ from rfl]
      rw [sgetline_empty [] ':']
      simp only
      rw [sgetline_failb [] true [] ' ']
      simp only
      rw [sgetline_failb [] true [] '\r']
      simp only
      exact mapFind_insert_keep hm K _ [] (Or.inl rfl) h
    · rw [processLine_no_colon l hm cm hnm hl0]
      exact mapFind_insert_keep hm K _ [] (Or.inl rfl) h

theorem foldl_processLine_preserves (K : List Char) (hK : '\r' ∈ K) :
    ∀ (lines : List (List Char))
      (p : List (List Char × List Char) × List (List Char × List Char)),
      (∀ l ∈ lines, '\r' ∉ l.dropLast) → mapFind p.1 K = some [] →
      mapFind ((lines.foldl (fun p ln => processLine ln p.1 p.2) p).1) K =
        some [] := by
  intro lines
  induction lines with
  | nil => intro p _ h; exact h
  | cons l ls ih =>
    intro p hall h
    simp only [List.foldl_cons]
    exact ih (processLine l p.1 p.2)
      (fun x hx => hall x (List.mem_cons_of_mem _ hx))
      (processLine_preserves_cr_key l p.1 p.2 K hK
        (hall l (List.mem_cons_self _ _)) h)

/-- C10: the header loop runs over every line of the received block, the
status line included, so on a successful dispatch whose status line holds no
colon the headers map additionally contains the entire lowercased status
line — ending in a carriage return, since no `:` splits it — bound to the
empty string. -/
theorem headers_contain_status_line_entry (sl rest body : List Char) (n : Int)
    (h1 : ':' ∉ sl) (h2 : '\n' ∉ sl) (h3 : '\r' ∉ sl)
    (h4 : ∀ l ∈ linesOf rest, '\r' ∉ l.dropLast)
    (h5 : stoiOpt (codeToken ((sl ++ ['\r']) ++ '\n' :: rest)) = some n) :
    ((execute ⟨0, body, (sl ++ ['\r']) ++ '\n' :: rest⟩).map fun resp =>
        mapFind resp.headers (toLowerChars sl ++ ['\r'])) = some (some []) := by
  have hcr_line : '\n' ∉ sl ++ ['\r'] := by
    intro hm
    rcases List.mem_append.mp hm with hx | hx
    · exact h2 hx
    · exact absurd (List.mem_singleton.mp hx) (by decide)
  have hfl : firstLine ((sl ++ ['\r']) ++ '\n' :: rest) = sl ++ ['\r'] :=
    firstLine_append _ _ hcr_line
  obtain ⟨msg, hpsl⟩ : ∃ msg,
      parseStatusLine (firstLine ((sl ++ ['\r']) ++ '\n' :: rest)) =
        some (n, msg) := by
    rw [parseStatusLine_def]
    unfold codeToken at h5
    rw [h5]
    exact ⟨_, rfl⟩
  rw [execute_ok, hpsl]
  simp only [Option.map_some]
  have hlines : linesOf ((sl ++ ['\r']) ++ '\n' :: rest) =
      (sl ++ ['\r']) :: linesOf rest := by
    rw [linesOf_eq]
    rw [splitFirst_append '\n' (sl ++ ['\r']) rest hcr_line]
  have hnc : ':' ∉ sl ++ ['\r'] := by
    intro hm
    rcases List.mem_append.mp hm with hx | hx
    · exact h1 hx
    · exact absurd (List.mem_singleton.mp hx) (by decide)
  have hstart : mapFind
      (processLine (sl ++ ['\r']) [] []).1 (toLowerChars sl ++ ['\r']) =
        some [] := by
    rw [processLine_no_colon (sl ++ ['\r']) [] [] hnc (by simp)]
    rw [toLowerChars_append_cr sl]
    exact mapFind_mapInsert_self [] _ []
  have hK : '\r' ∈ toLowerChars sl ++ ['\r'] := by simp
  have hfold := foldl_processLine_preserves (toLowerChars sl ++ ['\r']) hK
    (linesOf rest) (processLine (sl ++ ['\r']) [] []) h4 hstart
  rw [show Sstream.ofChars ((sl ++ ['\r']) ++ '\n' :: rest) =
      ⟨(sl ++ ['\r']) ++ '\n' :: rest, false, false⟩ from rfl]
  rw [headerLoop_as_fold ((sl ++ ['\r']) ++ '\n' :: rest).length _ (le_refl _)
    (firstLine ((sl ++ ['\r']) ++ '\n' :: rest)) [] []]
  rw [hlines]
  simp only [List.foldl_cons]
  exact congrArg some hfold

theorem headers_contain_status_line_entry_witness :
    ((execute ⟨0, [],
        ("HTTP/1.1 200 OK".data ++ ['\r']) ++ '\n' :: "Foo: bar\r\n\r\n".data⟩).map
          fun resp =>
            mapFind resp.headers (toLowerChars "HTTP/1.1 200 OK".data ++ ['\r'])) =
      some (some []) :=
  headers_contain_status_line_entry "HTTP/1.1 200 OK".data "Foo: bar\r\n\r\n".data
    [] 200 (by decide) (by decide) (by decide) (by decide) (by decide)

end RoPP
